import Mathlib

/-!
Verification development for a three-rotor cipher machine simulator
(`enigma.py`).  Strings of the source are modelled as `List Char`;
Python dictionaries keyed by single characters are modelled as
association lists looked up with `dlookup` (the source's dictionaries
are built with pairwise-distinct keys, so first-match lookup agrees
with Python dictionary lookup).  Python integers are modelled as `Int`
(Python's `%` on a positive modulus is `Int.emod`), and fallible
operations (sequence indexing, `str.index`, dictionary subscripting)
return `Option`, collapsing the distinct Python exception types raised
mid-stream into the single error `Err.streamError`.
-/

namespace EnigmaSim

/-- Association-list lookup; models Python dictionary access for the
dictionaries of the source, whose keys are pairwise distinct. -/
def dlookup : List (Char × Char) → Char → Option Char
  | [], _ => none
  | (k, v) :: rest, c => if c = k then some v else dlookup rest c

/-- The alphabet string `abc` of the source (line 21). -/
def abc : List Char := "ABCDEFGHIJKLMNOPQRSTUVWXYZ".toList

/-- The corresponding lower-case letters, paired with elements of `abc`;
used to model Python `str.upper` character by character. -/
def low2up : List (Char × Char) :=
  List.zip ("abcdefghijklmnopqrstuvwxyz".toList) abc

/-- Models Python `str.upper` on one character: lower-case letters map to
their upper-case counterparts, every other character is unchanged.  (The
source only ever feeds the result into membership tests against `abc`
and into the 26-letter machinery, so the one-character ASCII case map is
the relevant fragment of `str.upper`.) -/
def upperChar (c : Char) : Char :=
  match dlookup low2up c with
  | some u => u
  | none => c

/-- Rotor wiring `rotor1` (line 25). -/
def rotor1 : List Char := "EGZWVONAHDCLFQMSIPJBYUKXTR".toList
/-- Rotor wiring `rotor2` (line 26). -/
def rotor2 : List Char := "FOBHMDKEXQNRAULPGSJVTYICZW".toList
/-- Rotor wiring `rotor3` (line 27). -/
def rotor3 : List Char := "ZJXESIUQLHAVRMDOYGTNFWPBKC".toList
/-- Rotor wiring `rotor4` (line 59). -/
def rotor4 : List Char := "RMDJXFUWGISLHVTCQNKYPBEZOA".toList
/-- Rotor wiring `rotor5` (line 60). -/
def rotor5 : List Char := "SGLCPQWZHKXAREONTFBVIYJUDM".toList
/-- Rotor wiring `rotor6` (line 61). -/
def rotor6 : List Char := "HVSICLTYKQUBXDWAJZOMFGPREN".toList
/-- Rotor wiring `rotor7` (line 62). -/
def rotor7 : List Char := "RZWQHFMVDBKICJLNTUXAGYPSOE".toList
/-- Rotor wiring `rotor8` (line 63). -/
def rotor8 : List Char := "LFKIJODBEGAMQPXVUHYSTCZRWN".toList
/-- Rotor wiring `rotor9` (line 64). -/
def rotor9 : List Char := "KOAEGVDHXPQZMLFTYWJNBRCIUS".toList

/-- The shipped rotor catalog `rotor_list` (line 65). -/
def rotor_list : List (List Char) :=
  [rotor1, rotor2, rotor3, rotor4, rotor5, rotor6, rotor7, rotor8, rotor9]

/-- The reflector dictionary of the source (lines 29-56), in its
insertion order. -/
def reflector : List (Char × Char) :=
  [('A', 'N'), ('N', 'A'), ('B', 'O'), ('O', 'B'), ('C', 'P'), ('P', 'C'),
   ('D', 'Q'), ('Q', 'D'), ('E', 'R'), ('R', 'E'), ('F', 'S'), ('S', 'F'),
   ('G', 'T'), ('T', 'G'), ('H', 'U'), ('U', 'H'), ('I', 'V'), ('V', 'I'),
   ('J', 'W'), ('W', 'J'), ('K', 'X'), ('X', 'K'), ('L', 'Y'), ('Y', 'L'),
   ('M', 'Z'), ('Z', 'M')]

/-- The distinguishable failure causes raised by the source: the
`Exception`/`ValueError` raises of `_validator` and `_plugboard`
(each with a distinct message format, modelled by distinct constructors
carrying the data interpolated into the message), plus `streamError`
for an exception raised inside the per-symbol loop (an out-of-range
sequence index, a failed `str.index`, or a missing dictionary key). -/
inductive Err where
  | duplicateRotor (n : Nat)
  | positionOutOfRange (slot : Nat) (v : Int)
  | oddPlugboard (n : Nat)
  | invalidPbSymbol (c : Char)
  | duplicatePbSymbol (c : Char)
  | streamError
deriving DecidableEq, Repr

/-- The character scan of `_plugboard` (lines 122-130): walks the spec
keeping the set `tmppbl` of characters already seen (modelled as a list,
only ever queried for membership), rejecting a character outside `abc`
or one seen before. -/
def pbCheckChars : List Char → List Char → Except Err Unit
  | [], _ => Except.ok ()
  | c :: rest, seen =>
    if c ∉ abc then Except.error (Err.invalidPbSymbol c)
    else if c ∈ seen then Except.error (Err.duplicatePbSymbol c)
    else pbCheckChars rest (c :: seen)

/-- The dictionary-building loop of `_plugboard` (lines 133-136):
for each consecutive pair `(a, b)` of the spec it sets `pb[a] = b` and
`pb[b] = a`; since the scan has established that all characters are
distinct, the insertion-ordered pair list looked up first-match agrees
with the Python dictionary. -/
def pbPairs : List Char → List (Char × Char)
  | a :: b :: rest => (a, b) :: (b, a) :: pbPairs rest
  | _ => []

/-- `_plugboard` (lines 111-138).  The `isinstance` guard is subsumed by
typing.  Note the source's line 119 computes `pbstring.replace(" ", "")`
but discards the result, so spaces are never actually removed: the
odd-length check (line 114, which in any case runs first) and the
character scan both see the raw spec, spaces included. -/
def _plugboard (pbstring : List Char) : Except Err (List (Char × Char)) :=
  if pbstring.length % 2 ≠ 0 then Except.error (Err.oddPlugboard pbstring.length)
  else if pbstring = [] then Except.ok []
  else
    match pbCheckChars pbstring [] with
    | Except.error e => Except.error e
    | Except.ok _ => Except.ok (pbPairs pbstring)

/-- `_validator` (lines 68-108): requires three distinct rotors
(`len(set(rotsel))`, modelled with `List.dedup`), each position in
`1..26` (the `26` is the source's `len(abc)`), then builds the
plugboard; on success returns position and selection unchanged together
with the plugboard dictionary. -/
def _validator (rotpos : Int × Int × Int)
    (rotsel : List Char × List Char × List Char) (pb : List Char) :
    Except Err ((Int × Int × Int) × (List Char × List Char × List Char) ×
      List (Char × Char)) :=
  let unique_rotsel := ([rotsel.1, rotsel.2.1, rotsel.2.2].dedup).length
  if unique_rotsel < 3 then Except.error (Err.duplicateRotor unique_rotsel)
  else if ¬(0 < rotpos.1 ∧ rotpos.1 ≤ 26) then
    Except.error (Err.positionOutOfRange 1 rotpos.1)
  else if ¬(0 < rotpos.2.1 ∧ rotpos.2.1 ≤ 26) then
    Except.error (Err.positionOutOfRange 2 rotpos.2.1)
  else if ¬(0 < rotpos.2.2 ∧ rotpos.2.2 ≤ 26) then
    Except.error (Err.positionOutOfRange 3 rotpos.2.2)
  else
    match _plugboard pb with
    | Except.error e => Except.error e
    | Except.ok pbd => Except.ok (rotpos, rotsel, pbd)

/-- Python sequence indexing `l[i]` for a possibly negative index:
`-len l ≤ i < len l` wraps negative indexes from the end, anything
outside that range raises (`none`).  The source relies on this on
line 187-189, where `rotorN.index(symbol) - rotorposN` can be negative. -/
def pyGet (l : List Char) (i : Int) : Option Char :=
  if 0 ≤ i then l.get? i.toNat
  else if 0 ≤ i + l.length then l.get? (i + l.length).toNat
  else none

/-- Python `str.index`: the first index of `c` in `l`, raising (`none`)
when absent. -/
def strIndex : List Char → Char → Option Nat
  | [], _ => none
  | a :: rest, c => if c = a then some 0 else (strIndex rest c).map (· + 1)

/-- The plugboard application of the source (lines 166-167 and 192-193):
`if symbol in plugboard: symbol = plugboard[symbol]`. -/
def applyPb (pbd : List (Char × Char)) (c : Char) : Char :=
  match dlookup pbd c with
  | some d => d
  | none => c

/-- One forward rotor pass (lines 170-171, 174-175, 178-179):
`index = abc.index(symbol) + rotorpos; symbol = rotor[index % len(abc)]`. -/
def fwdR (r : List Char) (o : Int) (c : Char) : Option Char :=
  (strIndex abc c).bind (fun i => pyGet r (((i : Int) + o) % 26))

/-- One reverse rotor pass (lines 187-189):
`symbol = abc[rotor.index(symbol) - rotorpos]` (Python negative
indexing wraps). -/
def revR (r : List Char) (o : Int) (c : Char) : Option Char :=
  (strIndex r c).bind (fun t => pyGet abc ((t : Int) - o))

/-- The odometer advance of the source (lines 196-204), unrolling the
sequential mutation of `rotorpos1`, `rotorpos2`, `rotorpos3`: increment
position 1; on reaching 26 reset it and increment position 2; whenever
position 2 reaches 26 reset it and increment position 3; whenever
position 3 reaches 26 reset it (no further carry). -/
def odometer (st : Int × Int × Int) : Int × Int × Int :=
  let p1a := st.1 + 1
  let p1 := if p1a ≥ 26 then 0 else p1a
  let p2a := if p1a ≥ 26 then st.2.1 + 1 else st.2.1
  let p2 := if p2a ≥ 26 then 0 else p2a
  let p3a := if p2a ≥ 26 then st.2.2 + 1 else st.2.2
  let p3 := if p3a ≥ 26 then 0 else p3a
  (p1, p2, p3)

/-- One iteration of the per-symbol loop of `enigma` (lines 162-206):
a symbol in `abc` goes through plugboard, three forward rotor passes,
the reflector, three reverse rotor passes and the plugboard again, and
the offsets advance; any other symbol passes through unchanged with the
offsets untouched. -/
def enigmaStep (pbd : List (Char × Char)) (r1 r2 r3 : List Char)
    (st : Int × Int × Int) (symbol : Char) :
    Option (Char × (Int × Int × Int)) :=
  if symbol ∈ abc then
    (fwdR r1 st.1 (applyPb pbd symbol)).bind (fun s2 =>
      (fwdR r2 st.2.1 s2).bind (fun s3 =>
        (fwdR r3 st.2.2 s3).bind (fun s4 =>
          (dlookup reflector s4).bind (fun s5 =>
            (revR r3 st.2.2 s5).bind (fun s6 =>
              (revR r2 st.2.1 s6).bind (fun s7 =>
                (revR r1 st.1 s7).map (fun s8 =>
                  (applyPb pbd s8, odometer st))))))))
  else some (symbol, st)

/-- The whole loop of `enigma` (lines 159-206), threading the offsets
and accumulating the result. -/
def enigmaLoop (pbd : List (Char × Char)) (r1 r2 r3 : List Char) :
    List Char → Int × Int × Int → Option (List Char × (Int × Int × Int))
  | [], st => some ([], st)
  | c :: rest, st =>
    match enigmaStep pbd r1 r2 r3 st c with
    | none => none
    | some (d, st1) =>
      match enigmaLoop pbd r1 r2 r3 rest st1 with
      | none => none
      | some (out, stF) => some (d :: out, stF)

/-- `enigma` (lines 141-208): upper-case the text, validate the
configuration with the plugboard spec upper-cased (line 150), convert
the validated 1-based positions to 0-based offsets (lines 155-157), and
run the loop.  An exception raised inside the loop surfaces as
`Err.streamError`. -/
def enigma (text : List Char) (rotor_position : Int × Int × Int)
    (rotor_selection : List Char × List Char × List Char)
    (plugb : List Char) : Except Err (List Char) :=
  let textU := List.map upperChar text
  match _validator rotor_position rotor_selection (List.map upperChar plugb) with
  | Except.error e => Except.error e
  | Except.ok (pos, sel, pbd) =>
    match enigmaLoop pbd sel.1 sel.2.1 sel.2.2 textU
        (pos.1 - 1, pos.2.1 - 1, pos.2.2 - 1) with
    | none => Except.error Err.streamError
    | some (out, _) => Except.ok out

/-- The number of symbols of a text that belong to the alphabet (the
symbols for which the loop of `enigma` advances the offsets). -/
def countAbc : List Char → Nat
  | [] => 0
  | c :: rest => (if c ∈ abc then 1 else 0) + countAbc rest

/-- A rotor wiring is well-formed when it is a permutation of the
26-letter alphabet: 26 pairwise-distinct characters, exactly the
characters of `abc`.  Every rotor of the shipped catalog satisfies
this. -/
def isRotor (r : List Char) : Prop :=
  r.length = 26 ∧ r.Nodup ∧ (∀ c ∈ r, c ∈ abc) ∧ (∀ c ∈ abc, c ∈ r)

instance (r : List Char) : Decidable (isRotor r) := by
  unfold isRotor; infer_instance

/-- The offsets invariant maintained by the loop of `enigma`: each
0-based offset lies in `0..25`. -/
def InvSt (st : Int × Int × Int) : Prop :=
  0 ≤ st.1 ∧ st.1 < 26 ∧ 0 ≤ st.2.1 ∧ st.2.1 < 26 ∧
    0 ≤ st.2.2 ∧ st.2.2 < 26

instance (st : Int × Int × Int) : Decidable (InvSt st) := by
  unfold InvSt; infer_instance

/-- The facts about a plugboard dictionary that the engine relies on:
it is an involution whose values lie in the alphabet. -/
def PbGood (pbd : List (Char × Char)) : Prop :=
  ∀ a b, dlookup pbd a = some b → dlookup pbd b = some a ∧ b ∈ abc

/-- The offsets triple encoded as a base-26 counter value. -/
def stateCode (st : Int × Int × Int) : Int :=
  st.1 + 26 * st.2.1 + 676 * st.2.2

/-- The base-26 digits of a counter value, as an offsets triple. -/
def stateDecode (x : Int) : Int × Int × Int :=
  (x % 26, (x / 26) % 26, (x / 676) % 26)

theorem abc_length : abc.length = 26 := rfl

theorem abc_nodup : abc.Nodup := by decide

theorem dlookup_some_mem {l : List (Char × Char)} {c v : Char}
    (h : dlookup l c = some v) : (c, v) ∈ l := by
  induction l with
  | nil => simp [dlookup] at h
  | cons p rest ih =>
    obtain ⟨k, w⟩ := p
    by_cases hc : c = k
    · subst hc
      simp only [dlookup, if_true, eq_self_iff_true, Option.some.injEq] at h
      subst h; exact List.mem_cons_self _ _
    · simp only [dlookup, if_neg hc] at h
      exact List.mem_cons_of_mem _ (ih h)

theorem dlookup_none_of_not_key {l : List (Char × Char)} {c : Char}
    (h : c ∉ l.map Prod.fst) : dlookup l c = none := by
  induction l with
  | nil => rfl
  | cons p rest ih =>
    obtain ⟨k, w⟩ := p
    simp only [List.map_cons, List.mem_cons] at h
    push_neg at h
    simp only [dlookup, if_neg h.1]
    exact ih h.2

theorem strIndex_get? : ∀ {l : List Char} {c : Char} {i : Nat},
    strIndex l c = some i → l.get? i = some c := by
  intro l
  induction l with
  | nil => intro c i h; simp [strIndex] at h
  | cons a rest ih =>
    intro c i h
    by_cases hc : c = a
    · subst hc
      simp only [strIndex, if_true, eq_self_iff_true, Option.some.injEq] at h
      subst h; rfl
    · simp only [strIndex, if_neg hc, Option.map_eq_some'] at h
      obtain ⟨j, hj, hji⟩ := h
      subst hji
      simpa using ih hj

theorem strIndex_lt {l : List Char} {c : Char} {i : Nat}
    (h : strIndex l c = some i) : i < l.length := by
  have := strIndex_get? h
  rw [List.get?_eq_some] at this
  exact this.1

theorem strIndex_mem {l : List Char} {c : Char} (h : c ∈ l) :
    ∃ i, strIndex l c = some i := by
  induction l with
  | nil => simp at h
  | cons a rest ih =>
    by_cases hc : c = a
    · exact ⟨0, by simp [strIndex, hc]⟩
    · obtain ⟨j, hj⟩ := ih (by
        rcases List.mem_cons.mp h with h1 | h1
        · exact absurd h1 hc
        · exact h1)
      exact ⟨j + 1, by simp [strIndex, hc, hj]⟩

theorem strIndex_of_get? : ∀ {l : List Char}, l.Nodup → ∀ {i : Nat} {c : Char},
    l.get? i = some c → strIndex l c = some i := by
  intro l
  induction l with
  | nil => intro _ i c h; simp at h
  | cons a rest ih =>
    intro hnd i c h
    rw [List.nodup_cons] at hnd
    cases i with
    | zero =>
      simp only [List.get?] at h
      injection h with h
      subst h
      simp [strIndex]
    | succ j =>
      simp only [List.get?] at h
      have hcr : c ∈ rest := List.get?_mem h
      have hca : c ≠ a := by
        intro he; subst he; exact hnd.1 hcr
      simp [strIndex, hca, ih hnd.2 h]

theorem pyGet_nonneg {l : List Char} {x : Int} (h : 0 ≤ x) :
    pyGet l x = l.get? x.toNat := by
  simp [pyGet, h]

theorem pyGet_mem {l : List Char} {x : Int} {c : Char}
    (h : pyGet l x = some c) : c ∈ l := by
  unfold pyGet at h
  split at h
  · exact List.get?_mem h
  · split at h
    · exact List.get?_mem h
    · simp at h

theorem pyGet_abc_emod {x : Int} (h1 : -26 ≤ x) (h2 : x < 26) :
    pyGet abc x = abc.get? ((x % 26).toNat) := by
  unfold pyGet
  by_cases h : 0 ≤ x
  · rw [if_pos h]
    congr 1
    omega
  · rw [if_neg h, abc_length, if_pos (by omega : (0:Int) ≤ x + (26:Nat))]
    congr 1
    omega

theorem upperChar_mem_or_eq (c : Char) : upperChar c ∈ abc ∨ upperChar c = c := by
  unfold upperChar
  cases h : dlookup low2up c with
  | none => right; rfl
  | some u =>
    left
    have hm := dlookup_some_mem h
    have hall : ∀ p ∈ low2up, p.2 ∈ abc := by decide
    exact hall _ hm

theorem upperChar_abc_fix : ∀ c ∈ abc, upperChar c = c := by decide

theorem upperChar_idem (c : Char) : upperChar (upperChar c) = upperChar c := by
  rcases upperChar_mem_or_eq c with h | h
  · exact upperChar_abc_fix _ h
  · rw [h]; exact h

theorem upperChar_not_abc_fix {c : Char} (h : upperChar c ∉ abc) :
    upperChar c = c :=
  (upperChar_mem_or_eq c).resolve_left h

theorem reflector_core : ∀ c ∈ abc,
    ((dlookup reflector c).isSome = true) ∧
    (dlookup reflector c).getD c ∈ abc ∧
    (dlookup reflector c).getD c ≠ c ∧
    dlookup reflector ((dlookup reflector c).getD c) = some c := by decide

theorem reflector_spec {c : Char} (hc : c ∈ abc) :
    ∃ d, dlookup reflector c = some d ∧ d ∈ abc ∧ d ≠ c ∧
      dlookup reflector d = some c := by
  obtain ⟨h1, h2, h3, h4⟩ := reflector_core c hc
  cases h : dlookup reflector c with
  | none => rw [h] at h1; simp at h1
  | some d =>
    rw [h] at h2 h3 h4
    exact ⟨d, rfl, h2, h3, h4⟩

theorem fwdR_spec {r : List Char} (hr : isRotor r) (o : Int) {c : Char}
    (hc : c ∈ abc) : ∃ d, fwdR r o c = some d ∧ d ∈ abc := by
  obtain ⟨hlen, hnd, hsub, hsup⟩ := hr
  obtain ⟨i, hi⟩ := strIndex_mem hc
  have hjn : (0:Int) ≤ ((i:Int) + o) % 26 := Int.emod_nonneg _ (by norm_num)
  have hjl : ((i:Int) + o) % 26 < 26 := Int.emod_lt_of_pos _ (by norm_num)
  unfold fwdR
  rw [hi]
  show ∃ d, pyGet r (((i:Int) + o) % 26) = some d ∧ d ∈ abc
  rw [pyGet_nonneg hjn]
  have hlt : (((i:Int) + o) % 26).toNat < r.length := by omega
  rw [List.get?_eq_get hlt]
  exact ⟨_, rfl, hsub _ (List.get_mem _ _ _)⟩

theorem rev_fwd {r : List Char} (hr : isRotor r) {o : Int} (ho1 : 0 ≤ o)
    (ho2 : o < 26) {c d : Char} (hc : c ∈ abc) (hd : fwdR r o c = some d) :
    revR r o d = some c := by
  obtain ⟨hlen, hnd, hsub, hsup⟩ := hr
  obtain ⟨i, hi⟩ := strIndex_mem hc
  have hil : i < 26 := by have := strIndex_lt hi; rwa [abc_length] at this
  unfold fwdR at hd
  rw [hi] at hd
  change pyGet r (((i:Int) + o) % 26) = some d at hd
  have hjn : (0:Int) ≤ ((i:Int) + o) % 26 := Int.emod_nonneg _ (by norm_num)
  rw [pyGet_nonneg hjn] at hd
  have hsi : strIndex r d = some ((((i:Int) + o) % 26).toNat) :=
    strIndex_of_get? hnd hd
  unfold revR
  rw [hsi]
  change pyGet abc ((((((i:Int) + o) % 26).toNat : Int)) - o) = some c
  have hjl : ((i:Int) + o) % 26 < 26 := Int.emod_lt_of_pos _ (by norm_num)
  have htn : (((((i:Int) + o) % 26).toNat : Int)) = ((i:Int) + o) % 26 := by
    omega
  rw [htn, pyGet_abc_emod (by omega) (by omega)]
  have hi2 : ((((i:Int) + o) % 26 - o) % 26).toNat = i := by omega
  rw [hi2]
  exact strIndex_get? hi

theorem fwd_rev {r : List Char} (hr : isRotor r) {o : Int} (ho1 : 0 ≤ o)
    (ho2 : o < 26) {c d : Char} (hd : d ∈ abc) (h : revR r o d = some c) :
    fwdR r o c = some d ∧ c ∈ abc := by
  obtain ⟨hlen, hnd, hsub, hsup⟩ := hr
  have hdr : d ∈ r := hsup _ hd
  obtain ⟨t, ht⟩ := strIndex_mem hdr
  have htl : t < 26 := by have := strIndex_lt ht; omega
  unfold revR at h
  rw [ht] at h
  change pyGet abc ((t:Int) - o) = some c at h
  rw [pyGet_abc_emod (by omega) (by omega)] at h
  have hcm : c ∈ abc := List.get?_mem h
  have hsi : strIndex abc c = some ((((t:Int) - o) % 26).toNat) :=
    strIndex_of_get? abc_nodup h
  refine ⟨?_, hcm⟩
  unfold fwdR
  rw [hsi]
  change pyGet r (((((((t:Int) - o) % 26).toNat : Int)) + o) % 26) = some d
  have he : (((((((t:Int) - o) % 26).toNat : Int)) + o) % 26) = (t:Int) := by
    omega
  rw [he, pyGet_nonneg (by omega)]
  have ht2 : ((t:Int)).toNat = t := by omega
  rw [ht2]
  exact strIndex_get? ht

theorem revR_spec {r : List Char} (hr : isRotor r) {o : Int} (ho1 : 0 ≤ o)
    (ho2 : o < 26) {d : Char} (hd : d ∈ abc) :
    ∃ c, revR r o d = some c ∧ c ∈ abc := by
  obtain ⟨hlen, hnd, hsub, hsup⟩ := hr
  have hdr : d ∈ r := hsup _ hd
  obtain ⟨t, ht⟩ := strIndex_mem hdr
  have htl : t < 26 := by have := strIndex_lt ht; omega
  unfold revR
  rw [ht]
  show ∃ c, pyGet abc ((t:Int) - o) = some c ∧ c ∈ abc
  rw [pyGet_abc_emod (by omega) (by omega)]
  have hlt : ((((t:Int) - o) % 26)).toNat < abc.length := by
    rw [abc_length]; omega
  rw [List.get?_eq_get hlt]
  exact ⟨_, rfl, List.get_mem _ _ _⟩

theorem dlookup_cons_self {k v : Char} {rest : List (Char × Char)} :
    dlookup ((k, v) :: rest) k = some v := by
  simp [dlookup]

theorem dlookup_cons_ne {c k v : Char} {rest : List (Char × Char)}
    (h : c ≠ k) : dlookup ((k, v) :: rest) c = dlookup rest c := by
  simp [dlookup, h]

theorem pbPairs_mem : ∀ (s : List Char) (a b : Char),
    (a, b) ∈ pbPairs s → a ∈ s ∧ b ∈ s
  | [], a, b, h => by simp [pbPairs] at h
  | [x], a, b, h => by simp [pbPairs] at h
  | x :: y :: rest, a, b, h => by
    simp only [pbPairs, List.mem_cons] at h
    rcases h with h | h | h
    · obtain ⟨h1, h2⟩ := Prod.ext_iff.mp h
      subst h1; subst h2
      constructor <;> simp
    · obtain ⟨h1, h2⟩ := Prod.ext_iff.mp h
      subst h1; subst h2
      constructor <;> simp
    · have := pbPairs_mem rest a b h
      exact ⟨List.mem_cons_of_mem _ (List.mem_cons_of_mem _ this.1),
        List.mem_cons_of_mem _ (List.mem_cons_of_mem _ this.2)⟩

theorem pbPairs_invol : ∀ (s : List Char), s.Nodup → ∀ (a b : Char),
    dlookup (pbPairs s) a = some b → dlookup (pbPairs s) b = some a
  | [], _, a, b, h => by simp [pbPairs, dlookup] at h
  | [x], _, a, b, h => by simp [pbPairs, dlookup] at h
  | x :: y :: rest, hnd0, a, b, h => by
    have hnd := hnd0
    rw [List.nodup_cons] at hnd
    have hx : x ∉ y :: rest := hnd.1
    have hnd2 := hnd.2
    rw [List.nodup_cons] at hnd2
    have hy : y ∉ rest := hnd2.1
    have hxy : x ≠ y := fun he => hx (he ▸ List.mem_cons_self _ _)
    have hxr : x ∉ rest := fun he => hx (List.mem_cons_of_mem _ he)
    show dlookup ((x, y) :: (y, x) :: pbPairs rest) b = some a
    rw [show pbPairs (x :: y :: rest) = (x, y) :: (y, x) :: pbPairs rest
      from rfl] at h
    by_cases hax : a = x
    · subst hax
      rw [dlookup_cons_self] at h
      injection h with h
      subst h
      rw [dlookup_cons_ne (Ne.symm hxy), dlookup_cons_self]
    · rw [dlookup_cons_ne hax] at h
      by_cases hay : a = y
      · subst hay
        rw [dlookup_cons_self] at h
        injection h with h
        subst h
        rw [dlookup_cons_self]
      · rw [dlookup_cons_ne hay] at h
        have hmem := pbPairs_mem rest a b (dlookup_some_mem h)
        have hbx : b ≠ x := fun he => hxr (he ▸ hmem.2)
        have hby : b ≠ y := fun he => hy (he ▸ hmem.2)
        rw [dlookup_cons_ne hbx, dlookup_cons_ne hby]
        exact pbPairs_invol rest hnd2.2 a b h

theorem pbPairs_good {s : List Char} (hnd : s.Nodup)
    (hsub : ∀ c ∈ s, c ∈ abc) : PbGood (pbPairs s) := by
  intro a b h
  exact ⟨pbPairs_invol s hnd a b h,
    hsub _ (pbPairs_mem _ a b (dlookup_some_mem h)).2⟩

theorem pbCheckChars_ok : ∀ {l seen : List Char},
    pbCheckChars l seen = Except.ok () →
    l.Nodup ∧ (∀ c ∈ l, c ∈ abc) ∧ (∀ x ∈ seen, x ∉ l) := by
  intro l
  induction l with
  | nil => intro seen _; exact ⟨List.nodup_nil, by simp, by simp⟩
  | cons c rest ih =>
    intro seen h
    unfold pbCheckChars at h
    by_cases h1 : c ∈ abc
    · rw [if_neg (by simpa using h1)] at h
      by_cases h2 : c ∈ seen
      · rw [if_pos h2] at h; simp at h
      · rw [if_neg h2] at h
        obtain ⟨hnd, hsub, hdis⟩ := ih h
        have hcr : c ∉ rest := hdis c (List.mem_cons_self _ _)
        refine ⟨List.nodup_cons.mpr ⟨hcr, hnd⟩, ?_, ?_⟩
        · intro d hd
          rcases List.mem_cons.mp hd with rfl | hd
          · exact h1
          · exact hsub _ hd
        · intro x hx
          have hxr : x ∉ rest := hdis x (List.mem_cons_of_mem _ hx)
          have hxc : x ≠ c := fun he => h2 (he ▸ hx)
          intro hmem
          rcases List.mem_cons.mp hmem with he | he
          · exact hxc he
          · exact hxr he
    · rw [if_pos (by simpa using h1)] at h; simp at h

theorem plugboard_ok {s : List Char} {pbd : List (Char × Char)}
    (h : _plugboard s = Except.ok pbd) :
    s.length % 2 = 0 ∧
      ((s = [] ∧ pbd = []) ∨
        (s.Nodup ∧ (∀ c ∈ s, c ∈ abc) ∧ pbd = pbPairs s)) := by
  unfold _plugboard at h
  by_cases h1 : s.length % 2 ≠ 0
  · rw [if_pos h1] at h; simp at h
  · rw [if_neg h1] at h
    refine ⟨not_not.mp h1, ?_⟩
    by_cases h3 : s = []
    · subst h3
      rw [if_pos rfl] at h
      injection h with h
      exact Or.inl ⟨rfl, h.symm⟩
    · rw [if_neg h3] at h
      cases hc : pbCheckChars s [] with
      | error e => rw [hc] at h; simp at h
      | ok u =>
        cases u
        rw [hc] at h
        injection h with h
        obtain ⟨hnd, hsub, -⟩ := pbCheckChars_ok hc
        exact Or.inr ⟨hnd, hsub, h.symm⟩

theorem plugboard_good {s : List Char} {pbd : List (Char × Char)}
    (h : _plugboard s = Except.ok pbd) : PbGood pbd := by
  obtain ⟨-, h2 | ⟨hnd, hsub, rfl⟩⟩ := plugboard_ok h
  · obtain ⟨-, rfl⟩ := h2
    intro a b hab
    simp [dlookup] at hab
  · exact pbPairs_good hnd hsub

theorem applyPb_of_none {pbd : List (Char × Char)} {c : Char}
    (h : dlookup pbd c = none) : applyPb pbd c = c := by
  unfold applyPb; rw [h]

theorem applyPb_of_some {pbd : List (Char × Char)} {c d : Char}
    (h : dlookup pbd c = some d) : applyPb pbd c = d := by
  unfold applyPb; rw [h]

theorem applyPb_mem {pbd : List (Char × Char)} (h : PbGood pbd) {c : Char}
    (hc : c ∈ abc) : applyPb pbd c ∈ abc := by
  cases he : dlookup pbd c with
  | none => rw [applyPb_of_none he]; exact hc
  | some d => rw [applyPb_of_some he]; exact (h _ _ he).2

theorem applyPb_invol {pbd : List (Char × Char)} (h : PbGood pbd) (c : Char) :
    applyPb pbd (applyPb pbd c) = c := by
  cases he : dlookup pbd c with
  | none => rw [applyPb_of_none he, applyPb_of_none he]
  | some d =>
    rw [applyPb_of_some he, applyPb_of_some (h _ _ he).1]

theorem odometer_decode {st : Int × Int × Int} (h : InvSt st) :
    odometer st = stateDecode ((stateCode st + 1) % 17576) := by
  obtain ⟨a, b, c⟩ := st
  simp only [InvSt] at h
  obtain ⟨h1, h2, h3, h4, h5, h6⟩ := h
  simp only [odometer, stateCode, stateDecode, Prod.mk.injEq]
  split_ifs <;> refine ⟨by omega, by omega, by omega⟩

theorem odometer_inv {st : Int × Int × Int} (h : InvSt st) :
    InvSt (odometer st) := by
  rw [odometer_decode h]
  unfold InvSt stateDecode
  refine ⟨?_, ?_, ?_, ?_, ?_, ?_⟩ <;> simp only [] <;> omega

theorem enigmaStep_not_abc {pbd : List (Char × Char)} {r1 r2 r3 : List Char}
    {st : Int × Int × Int} {c : Char} (hc : c ∉ abc) :
    enigmaStep pbd r1 r2 r3 st c = some (c, st) := by
  unfold enigmaStep
  rw [if_neg hc]

theorem enigmaStep_state {pbd : List (Char × Char)} {r1 r2 r3 : List Char}
    {st st1 : Int × Int × Int} {c d : Char}
    (h : enigmaStep pbd r1 r2 r3 st c = some (d, st1)) :
    (c ∈ abc ∧ st1 = odometer st) ∨ (c ∉ abc ∧ d = c ∧ st1 = st) := by
  by_cases hc : c ∈ abc
  · left
    refine ⟨hc, ?_⟩
    unfold enigmaStep at h
    rw [if_pos hc] at h
    simp only [Option.bind_eq_some, Option.map_eq_some'] at h
    obtain ⟨s2, -, s3, -, s4, -, s5, -, s6, -, s7, -, s8, -, he⟩ := h
    exact (Prod.ext_iff.mp he).2.symm
  · right
    rw [enigmaStep_not_abc hc] at h
    injection h with h
    exact ⟨hc, (Prod.ext_iff.mp h).1.symm, (Prod.ext_iff.mp h).2.symm⟩

theorem enigmaStep_alpha {pbd : List (Char × Char)} {r1 r2 r3 : List Char}
    (hr1 : isRotor r1) (hr2 : isRotor r2) (hr3 : isRotor r3)
    (hpb : PbGood pbd) {st : Int × Int × Int} (hst : InvSt st) {c : Char}
    (hc : c ∈ abc) :
    ∃ d, enigmaStep pbd r1 r2 r3 st c = some (d, odometer st) ∧ d ∈ abc ∧
      enigmaStep pbd r1 r2 r3 st d = some (c, odometer st) := by
  unfold InvSt at hst
  obtain ⟨ho1, ho2, ho3, ho4, ho5, ho6⟩ := hst
  have hs1 : applyPb pbd c ∈ abc := applyPb_mem hpb hc
  obtain ⟨s2, hf1, hs2⟩ := fwdR_spec hr1 st.1 hs1
  obtain ⟨s3, hf2, hs3⟩ := fwdR_spec hr2 st.2.1 hs2
  obtain ⟨s4, hf3, hs4⟩ := fwdR_spec hr3 st.2.2 hs3
  obtain ⟨s5, hrf, hs5, hne, hrfb⟩ := reflector_spec hs4
  obtain ⟨s6, hv3, hs6⟩ := revR_spec hr3 ho5 ho6 hs5
  obtain ⟨s7, hv2, hs7⟩ := revR_spec hr2 ho3 ho4 hs6
  obtain ⟨s8, hv1, hs8⟩ := revR_spec hr1 ho1 ho2 hs7
  have hdabc : applyPb pbd s8 ∈ abc := applyPb_mem hpb hs8
  refine ⟨applyPb pbd s8, ?_, hdabc, ?_⟩
  · simp only [enigmaStep, if_pos hc, hf1, hf2, hf3, hrf, hv3, hv2, hv1,
      Option.some_bind, Option.map_some']
  · have hg1 : fwdR r1 st.1 s8 = some s7 := (fwd_rev hr1 ho1 ho2 hs7 hv1).1
    have hg2 : fwdR r2 st.2.1 s7 = some s6 := (fwd_rev hr2 ho3 ho4 hs6 hv2).1
    have hg3 : fwdR r3 st.2.2 s6 = some s5 := (fwd_rev hr3 ho5 ho6 hs5 hv3).1
    have hw3 : revR r3 st.2.2 s4 = some s3 := rev_fwd hr3 ho5 ho6 hs3 hf3
    have hw2 : revR r2 st.2.1 s3 = some s2 := rev_fwd hr2 ho3 ho4 hs2 hf2
    have hw1 : revR r1 st.1 s2 = some (applyPb pbd c) :=
      rev_fwd hr1 ho1 ho2 hs1 hf1
    have e1 : applyPb pbd (applyPb pbd s8) = s8 := applyPb_invol hpb s8
    simp only [enigmaStep, if_pos hdabc, e1, hg1, hg2, hg3, hrfb, hw3, hw2,
      hw1, Option.some_bind, Option.map_some']
    rw [applyPb_invol hpb c]

theorem countAbc_cons_abc {c : Char} {rest : List Char} (hc : c ∈ abc) :
    countAbc (c :: rest) = countAbc rest + 1 := by
  simp only [countAbc, if_pos hc]
  omega

theorem countAbc_cons_not_abc {c : Char} {rest : List Char} (hc : c ∉ abc) :
    countAbc (c :: rest) = countAbc rest := by
  simp only [countAbc, if_neg hc]
  omega

theorem enigmaLoop_main {pbd : List (Char × Char)} {r1 r2 r3 : List Char}
    (hr1 : isRotor r1) (hr2 : isRotor r2) (hr3 : isRotor r3)
    (hpb : PbGood pbd) :
    ∀ (text : List Char) (st : Int × Int × Int), InvSt st →
    ∃ out, enigmaLoop pbd r1 r2 r3 text st =
        some (out, odometer^[countAbc text] st) ∧
      List.Forall₂ (fun c d => (c ∈ abc ∧ d ∈ abc) ∨ (c ∉ abc ∧ d = c))
        text out ∧
      enigmaLoop pbd r1 r2 r3 out st =
        some (text, odometer^[countAbc text] st) := by
  intro text
  induction text with
  | nil =>
    intro st _
    exact ⟨[], by simp [enigmaLoop, countAbc], List.Forall₂.nil,
      by simp [enigmaLoop, countAbc]⟩
  | cons c rest ih =>
    intro st hst
    by_cases hc : c ∈ abc
    · obtain ⟨d, hstep, hd, hback⟩ := enigmaStep_alpha hr1 hr2 hr3 hpb hst hc
      obtain ⟨out, hloop, hfa, hloopb⟩ := ih (odometer st) (odometer_inv hst)
      have hcount : countAbc (c :: rest) = countAbc rest + 1 :=
        countAbc_cons_abc hc
      have hiter : odometer^[countAbc (c :: rest)] st =
          odometer^[countAbc rest] (odometer st) := by
        rw [hcount, Function.iterate_succ_apply]
      refine ⟨d :: out, ?_, List.Forall₂.cons (Or.inl ⟨hc, hd⟩) hfa, ?_⟩
      · simp only [enigmaLoop, hstep, hloop, hiter]
      · simp only [enigmaLoop, hback, hloopb, hiter]
    · obtain ⟨out, hloop, hfa, hloopb⟩ := ih st hst
      have hcount : countAbc (c :: rest) = countAbc rest :=
        countAbc_cons_not_abc hc
      refine ⟨c :: out, ?_, List.Forall₂.cons (Or.inr ⟨hc, rfl⟩) hfa, ?_⟩
      · simp only [enigmaLoop, enigmaStep_not_abc hc, hloop, hcount]
      · simp only [enigmaLoop, enigmaStep_not_abc hc, hloopb, hcount]

theorem validator_ok_inv {pos : Int × Int × Int}
    {sel : List Char × List Char × List Char} {pb : List Char}
    {v : (Int × Int × Int) × (List Char × List Char × List Char) ×
      List (Char × Char)}
    (h : _validator pos sel pb = Except.ok v) :
    v.1 = pos ∧ v.2.1 = sel ∧ _plugboard pb = Except.ok v.2.2 ∧
      (0 < pos.1 ∧ pos.1 ≤ 26) ∧ (0 < pos.2.1 ∧ pos.2.1 ≤ 26) ∧
      (0 < pos.2.2 ∧ pos.2.2 ≤ 26) := by
  simp only [_validator] at h
  split_ifs at h with e1 e2 e3 e4
  cases hpb : _plugboard pb with
  | error e => rw [hpb] at h; simp at h
  | ok pbd =>
    rw [hpb] at h
    injection h with h
    subst h
    exact ⟨rfl, rfl, rfl, e2, e3, e4⟩

theorem decode_code {st : Int × Int × Int} (h : InvSt st) :
    stateDecode (stateCode st % 17576) = st := by
  obtain ⟨a, b, c⟩ := st
  simp only [InvSt] at h
  simp only [stateCode, stateDecode, Prod.mk.injEq]
  refine ⟨?_, ?_, ?_⟩ <;> omega

theorem stateCode_decode {x : Int} (h1 : 0 ≤ x) (h2 : x < 17576) :
    stateCode (stateDecode x) = x := by
  simp only [stateCode, stateDecode]
  omega

theorem odometer_iterate : ∀ (n : Nat) (st : Int × Int × Int), InvSt st →
    odometer^[n] st = stateDecode ((stateCode st + (n : Int)) % 17576) := by
  intro n
  induction n with
  | zero =>
    intro st h
    simp only [Function.iterate_zero_apply, Nat.cast_zero, add_zero]
    exact (decode_code h).symm
  | succ n ih =>
    intro st h
    rw [Function.iterate_succ_apply, ih (odometer st) (odometer_inv h),
      odometer_decode h]
    have hx1 : (0:Int) ≤ (stateCode st + 1) % 17576 :=
      Int.emod_nonneg _ (by norm_num)
    have hx2 : (stateCode st + 1) % 17576 < 17576 :=
      Int.emod_lt_of_pos _ (by norm_num)
    rw [stateCode_decode hx1 hx2]
    congr 1
    push_cast
    omega

theorem rotor_list_valid : ∀ r ∈ rotor_list, isRotor r := by decide

theorem forall2_out_fix : ∀ {l out : List Char},
    List.Forall₂ (fun c d => (c ∈ abc ∧ d ∈ abc) ∨ (c ∉ abc ∧ d = c)) l out →
    (∀ c ∈ l, upperChar c = c) → List.map upperChar out = out := by
  intro l out h
  induction h with
  | nil => intro _; rfl
  | @cons a b l1 l2 hr hrest ih =>
    intro hfix
    simp only [List.map_cons]
    have hb : upperChar b = b := by
      rcases hr with ⟨-, hb⟩ | ⟨-, rfl⟩
      · exact upperChar_abc_fix _ hb
      · exact hfix _ (List.mem_cons_self _ _)
    rw [hb, ih (fun c hc => hfix c (List.mem_cons_of_mem _ hc))]

theorem forall2_get? {R : Char → Char → Prop} : ∀ {l1 l2 : List Char},
    List.Forall₂ R l1 l2 → ∀ {i : Nat} {a : Char}, l1.get? i = some a →
    ∃ b, l2.get? i = some b ∧ R a b := by
  intro l1 l2 h
  induction h with
  | nil => intro i a ha; simp at ha
  | @cons x y l1 l2 hr hrest ih =>
    intro i a ha
    cases i with
    | zero =>
      simp only [List.get?] at ha
      injection ha with ha
      subst ha
      exact ⟨y, rfl, hr⟩
    | succ j =>
      simp only [List.get?] at ha ⊢
      exact ih ha

theorem map_upper_fix_of_upper (text : List Char) :
    ∀ c ∈ List.map upperChar text, upperChar c = c := by
  intro c hc
  rw [List.mem_map] at hc
  obtain ⟨a, -, rfl⟩ := hc
  exact upperChar_idem a

theorem enigma_ok_main {text pb : List Char} {pos : Int × Int × Int}
    {sel : List Char × List Char × List Char}
    (hr1 : isRotor sel.1) (hr2 : isRotor sel.2.1) (hr3 : isRotor sel.2.2)
    {v : (Int × Int × Int) × (List Char × List Char × List Char) ×
      List (Char × Char)}
    (hv : _validator pos sel (List.map upperChar pb) = Except.ok v) :
    ∃ out, enigma text pos sel pb = Except.ok out ∧
      List.Forall₂ (fun c d => (c ∈ abc ∧ d ∈ abc) ∨ (c ∉ abc ∧ d = c))
        (List.map upperChar text) out ∧
      enigma out pos sel pb = Except.ok (List.map upperChar text) := by
  obtain ⟨pos', sel', pbd⟩ := v
  obtain ⟨hp, hs, hpb, hb1, hb2, hb3⟩ := validator_ok_inv hv
  dsimp only at hp hs hpb
  rw [hp, hs] at hv
  have hgood : PbGood pbd := plugboard_good hpb
  have hinv : InvSt (pos.1 - 1, pos.2.1 - 1, pos.2.2 - 1) := by
    simp only [InvSt]
    refine ⟨?_, ?_, ?_, ?_, ?_, ?_⟩ <;> omega
  obtain ⟨out, hloop, hfa, hback⟩ :=
    enigmaLoop_main hr1 hr2 hr3 hgood (List.map upperChar text) _ hinv
  refine ⟨out, ?_, hfa, ?_⟩
  · simp only [enigma, hv, hloop]
  · have hfix : List.map upperChar out = out :=
      forall2_out_fix hfa (map_upper_fix_of_upper text)
    simp only [enigma, hv, hfix, hback]

theorem dedup3_lt_iff (a b c : List Char) :
    ([a, b, c].dedup).length < 3 ↔ (a = b ∨ a = c ∨ b = c) := by
  constructor
  · intro h
    by_contra hne
    push_neg at hne
    obtain ⟨h1, h2, h3⟩ := hne
    have hnd : ([a, b, c] : List (List Char)).Nodup := by
      simp [List.nodup_cons, h1, h2, h3]
    rw [List.dedup_eq_self.mpr hnd] at h
    simp at h
  · intro h
    rcases Nat.lt_or_ge (([a, b, c].dedup).length) 3 with hl | hl
    · exact hl
    · exfalso
      have hsub := List.dedup_sublist ([a, b, c] : List (List Char))
      have heq : ([a, b, c].dedup) = [a, b, c] :=
        hsub.eq_of_length (by have := hsub.length_le; simp at this ⊢; omega)
      have hnd := List.nodup_dedup ([a, b, c] : List (List Char))
      rw [heq] at hnd
      rcases h with h | h | h <;> subst h <;> simp at hnd

theorem enigmaLoop_state {pbd : List (Char × Char)} {r1 r2 r3 : List Char} :
    ∀ (text : List Char) (st stF : Int × Int × Int) (out : List Char),
    enigmaLoop pbd r1 r2 r3 text st = some (out, stF) →
    stF = odometer^[countAbc text] st := by
  intro text
  induction text with
  | nil =>
    intro st stF out h
    simp only [enigmaLoop, Option.some.injEq] at h
    have := (Prod.ext_iff.mp h).2
    simp only [countAbc, Function.iterate_zero_apply]
    exact this.symm
  | cons c rest ih =>
    intro st stF out h
    unfold enigmaLoop at h
    cases hstep : enigmaStep pbd r1 r2 r3 st c with
    | none => rw [hstep] at h; simp at h
    | some p =>
      obtain ⟨d, st1⟩ := p
      rw [hstep] at h
      dsimp only at h
      cases hloop : enigmaLoop pbd r1 r2 r3 rest st1 with
      | none => rw [hloop] at h; simp at h
      | some q =>
        obtain ⟨out2, stF2⟩ := q
        rw [hloop] at h
        dsimp only at h
        simp only [Option.some.injEq] at h
        have hF : stF = stF2 := (Prod.ext_iff.mp h).2.symm
        subst hF
        have hrec := ih st1 stF out2 hloop
        rcases enigmaStep_state hstep with ⟨hc, rfl⟩ | ⟨hc, -, rfl⟩
        · rw [countAbc_cons_abc hc, Function.iterate_succ_apply]
          exact hrec
        · rw [countAbc_cons_not_abc hc]
          exact hrec

theorem map_upper_idem : ∀ (pb : List Char),
    List.map upperChar (List.map upperChar pb) = List.map upperChar pb
  | [] => rfl
  | c :: rest => by
    simp only [List.map_cons, upperChar_idem, map_upper_idem rest]

/-- Claim C1 (reciprocity): for every configuration whose three rotor
wirings come from the shipped catalog and which passes validation
(initial position components in `1..26`, three pairwise-distinct rotors,
well-formed plugboard spec) and every input string `S`, encrypting and
then decrypting with the identical configuration reproduces the
upper-cased input exactly, symbol by symbol. -/
theorem C1_reciprocity (S pb : List Char) (pos : Int × Int × Int)
    (sel : List Char × List Char × List Char)
    (h1 : sel.1 ∈ rotor_list) (h2 : sel.2.1 ∈ rotor_list)
    (h3 : sel.2.2 ∈ rotor_list)
    (hv : ∃ v, _validator pos sel (List.map upperChar pb) = Except.ok v) :
    ∃ out, enigma S pos sel pb = Except.ok out ∧
      enigma out pos sel pb = Except.ok (List.map upperChar S) := by
  obtain ⟨v, hv⟩ := hv
  obtain ⟨out, ho, -, hb⟩ := enigma_ok_main (rotor_list_valid _ h1)
    (rotor_list_valid _ h2) (rotor_list_valid _ h3) hv
  exact ⟨out, ho, hb⟩

/-- Witness for C1 at a concrete configuration and text. -/
theorem C1_reciprocity_witness :
    ∃ out, enigma ("Hello, World! 123".toList) (1, 2, 3)
        (rotor2, rotor5, rotor9) ("pictures".toList) = Except.ok out ∧
      enigma out (1, 2, 3) (rotor2, rotor5, rotor9) ("pictures".toList) =
        Except.ok (List.map upperChar ("Hello, World! 123".toList)) :=
  C1_reciprocity _ _ _ _ (by decide) (by decide) (by decide) ⟨_, rfl⟩

/-- Claim C2 (length and position preservation): for every input text and
every valid configuration with catalog rotors, the string returned by
`enigma` has the same length as the input, every non-alphabet character
appears unchanged at its original index, every alphabet-letter position
holds an upper-case alphabet letter, and non-alphabet characters do not
advance the rotor offsets. -/
theorem C2_length_passthrough (text pb : List Char) (pos : Int × Int × Int)
    (sel : List Char × List Char × List Char)
    (h1 : sel.1 ∈ rotor_list) (h2 : sel.2.1 ∈ rotor_list)
    (h3 : sel.2.2 ∈ rotor_list)
    (hv : ∃ v, _validator pos sel (List.map upperChar pb) = Except.ok v) :
    ∃ out, enigma text pos sel pb = Except.ok out ∧
      out.length = text.length ∧
      (∀ i c, text.get? i = some c → upperChar c ∉ abc →
        out.get? i = some c) ∧
      (∀ i c, text.get? i = some c → upperChar c ∈ abc →
        ∃ d, out.get? i = some d ∧ d ∈ abc) ∧
      (∀ (pbd : List (Char × Char)) (r1 r2 r3 : List Char)
        (st : Int × Int × Int) (c : Char), c ∉ abc →
        enigmaStep pbd r1 r2 r3 st c = some (c, st)) := by
  obtain ⟨v, hv⟩ := hv
  obtain ⟨out, ho, hfa, -⟩ := enigma_ok_main (rotor_list_valid _ h1)
    (rotor_list_valid _ h2) (rotor_list_valid _ h3) hv
  refine ⟨out, ho, ?_, ?_, ?_,
    fun pbd r1 r2 r3 st c hc => enigmaStep_not_abc hc⟩
  · have := hfa.length_eq
    rw [List.length_map] at this
    exact this.symm
  · intro i c hi hc
    have hmap : (List.map upperChar text).get? i = some (upperChar c) := by
      rw [List.get?_map, hi]
      rfl
    obtain ⟨d, hd, hr⟩ := forall2_get? hfa hmap
    rcases hr with ⟨ha, -⟩ | ⟨-, rfl⟩
    · exact absurd ha hc
    · rw [upperChar_not_abc_fix hc] at hd
      exact hd
  · intro i c hi hc
    have hmap : (List.map upperChar text).get? i = some (upperChar c) := by
      rw [List.get?_map, hi]
      rfl
    obtain ⟨d, hd, hr⟩ := forall2_get? hfa hmap
    rcases hr with ⟨-, hda⟩ | ⟨ha, -⟩
    · exact ⟨d, hd, hda⟩
    · exact absurd hc ha

/-- Witness for C2 at a concrete configuration and text. -/
theorem C2_length_passthrough_witness :
    ∃ out, enigma ("Hi! 5x".toList) (2, 3, 4) (rotor1, rotor2, rotor3)
        ("AB".toList) = Except.ok out ∧
      out.length = ("Hi! 5x".toList).length ∧
      out.get? 2 = some '!' := by
  obtain ⟨out, ho, hlen, hpass, -, -⟩ :=
    C2_length_passthrough ("Hi! 5x".toList) ("AB".toList) (2, 3, 4)
      (rotor1, rotor2, rotor3) (by decide) (by decide) (by decide) ⟨_, rfl⟩
  exact ⟨out, ho, hlen, hpass 2 '!' rfl (by decide)⟩

/-- Claim C3, counterexample: the claim quantifies over every
configuration that passes the validator, but `_validator` never checks
that the selected wirings are alphabet permutations; with the distinct
but malformed wirings "AB"/"CD"/"EF" validation succeeds and the
per-symbol transform then fails mid-stream on the very first letter. -/
theorem C3_counterexample :
    (∃ v, _validator (1, 1, 1) ("AB".toList, "CD".toList, "EF".toList) [] =
      Except.ok v) ∧
    enigma (['A']) (1, 1, 1) ("AB".toList, "CD".toList, "EF".toList) [] =
      Except.error Err.streamError :=
  ⟨⟨_, rfl⟩, rfl⟩

/-- Claim C3 (amended): for every configuration that passes the validator
and whose three rotor wirings are permutations of the 26-letter alphabet
(as every wiring of the shipped catalog is), processing any input text
raises no error and produces an output symbol for every input character;
every intermediate lookup of the per-symbol transform succeeds. -/
theorem C3_totality (text pb : List Char) (pos : Int × Int × Int)
    (sel : List Char × List Char × List Char)
    (hr1 : isRotor sel.1) (hr2 : isRotor sel.2.1) (hr3 : isRotor sel.2.2)
    (hv : ∃ v, _validator pos sel (List.map upperChar pb) = Except.ok v) :
    ∃ out, enigma text pos sel pb = Except.ok out ∧
      out.length = text.length := by
  obtain ⟨v, hv⟩ := hv
  obtain ⟨out, ho, hfa, -⟩ := enigma_ok_main hr1 hr2 hr3 hv
  refine ⟨out, ho, ?_⟩
  have := hfa.length_eq
  rw [List.length_map] at this
  exact this.symm

/-- Witness for the amended C3 at a concrete configuration and text. -/
theorem C3_totality_witness :
    ∃ out, enigma ("a#z".toList) (26, 26, 26) (rotor7, rotor8, rotor9)
        [] = Except.ok out ∧ out.length = ("a#z".toList).length :=
  C3_totality _ _ _ _ (by decide) (by decide) (by decide) ⟨_, rfl⟩

/-- Claim C4 (validator raises-iff): `_validator` fails with
`DuplicateRotor` exactly when fewer than 3 distinct wirings are selected;
otherwise it fails with `PositionOutOfRange`, naming the first offending
slot, exactly when some position component is outside `1..26`; otherwise
it propagates plugboard build errors; and on success it returns the
position and selection unchanged together with the built plugboard. -/
theorem C4_validator (pos : Int × Int × Int)
    (sel : List Char × List Char × List Char) (pb : List Char) :
    ((sel.1 = sel.2.1 ∨ sel.1 = sel.2.2 ∨ sel.2.1 = sel.2.2) →
      ∃ n, n < 3 ∧
        _validator pos sel pb = Except.error (Err.duplicateRotor n))
    ∧ (sel.1 ≠ sel.2.1 → sel.1 ≠ sel.2.2 → sel.2.1 ≠ sel.2.2 →
      ((¬(1 ≤ pos.1 ∧ pos.1 ≤ 26) →
        _validator pos sel pb =
          Except.error (Err.positionOutOfRange 1 pos.1))
      ∧ ((1 ≤ pos.1 ∧ pos.1 ≤ 26) → ¬(1 ≤ pos.2.1 ∧ pos.2.1 ≤ 26) →
        _validator pos sel pb =
          Except.error (Err.positionOutOfRange 2 pos.2.1))
      ∧ ((1 ≤ pos.1 ∧ pos.1 ≤ 26) → (1 ≤ pos.2.1 ∧ pos.2.1 ≤ 26) →
          ¬(1 ≤ pos.2.2 ∧ pos.2.2 ≤ 26) →
        _validator pos sel pb =
          Except.error (Err.positionOutOfRange 3 pos.2.2))
      ∧ ((1 ≤ pos.1 ∧ pos.1 ≤ 26) → (1 ≤ pos.2.1 ∧ pos.2.1 ≤ 26) →
          (1 ≤ pos.2.2 ∧ pos.2.2 ≤ 26) →
        ((∀ e, _plugboard pb = Except.error e →
            _validator pos sel pb = Except.error e)
        ∧ (∀ pbd, _plugboard pb = Except.ok pbd →
            _validator pos sel pb = Except.ok (pos, sel, pbd)))))) := by
  have hdup := dedup3_lt_iff sel.1 sel.2.1 sel.2.2
  constructor
  · intro h
    refine ⟨([sel.1, sel.2.1, sel.2.2].dedup).length, hdup.mpr h, ?_⟩
    simp only [_validator]
    rw [if_pos (hdup.mpr h)]
  · intro hne1 hne2 hne3
    have hnotlt : ¬(([sel.1, sel.2.1, sel.2.2].dedup).length < 3) := by
      intro hc
      rcases hdup.mp hc with h | h | h
      exacts [hne1 h, hne2 h, hne3 h]
    refine ⟨?_, ?_, ?_, ?_⟩
    · intro hp1
      simp only [_validator]
      rw [if_neg hnotlt, if_pos (by omega : ¬(0 < pos.1 ∧ pos.1 ≤ 26))]
    · intro h1 hp2
      simp only [_validator]
      rw [if_neg hnotlt, if_neg (by omega : ¬¬(0 < pos.1 ∧ pos.1 ≤ 26)),
        if_pos (by omega : ¬(0 < pos.2.1 ∧ pos.2.1 ≤ 26))]
    · intro h1 h2 hp3
      simp only [_validator]
      rw [if_neg hnotlt, if_neg (by omega : ¬¬(0 < pos.1 ∧ pos.1 ≤ 26)),
        if_neg (by omega : ¬¬(0 < pos.2.1 ∧ pos.2.1 ≤ 26)),
        if_pos (by omega : ¬(0 < pos.2.2 ∧ pos.2.2 ≤ 26))]
    · intro h1 h2 h3
      constructor
      · intro e he
        simp only [_validator]
        rw [if_neg hnotlt, if_neg (by omega : ¬¬(0 < pos.1 ∧ pos.1 ≤ 26)),
          if_neg (by omega : ¬¬(0 < pos.2.1 ∧ pos.2.1 ≤ 26)),
          if_neg (by omega : ¬¬(0 < pos.2.2 ∧ pos.2.2 ≤ 26)), he]
      · intro pbd hpbd
        simp only [_validator]
        rw [if_neg hnotlt, if_neg (by omega : ¬¬(0 < pos.1 ∧ pos.1 ≤ 26)),
          if_neg (by omega : ¬¬(0 < pos.2.1 ∧ pos.2.1 ≤ 26)),
          if_neg (by omega : ¬¬(0 < pos.2.2 ∧ pos.2.2 ≤ 26)), hpbd]

/-- Witness for C4: an out-of-range first position is reported for
slot 1. -/
theorem C4_validator_witness :
    _validator (0, 1, 1) (rotor1, rotor2, rotor3) [] =
      Except.error (Err.positionOutOfRange 1 0) := by
  have h := (C4_validator (0, 1, 1) (rotor1, rotor2, rotor3) []).2
    (by decide) (by decide) (by decide)
  exact h.1 (by decide)

/-- Claim C5: the per-claim behaviour fails on the code.  The source
computes `pbstring.replace(" ", "")` but discards the result (and the
odd-length check runs before that line anyway), so spaces are never
removed: the spec "AB CD" is rejected as having odd length 5 instead of
building with the spaces ignored, and the even-length spaced spec
"AB  CD" is rejected on the space character. -/
theorem C5_spaces_rejected :
    _plugboard ("AB CD".toList) = Except.error (Err.oddPlugboard 5) ∧
    _plugboard ("AB  CD".toList) =
      Except.error (Err.invalidPbSymbol ' ') :=
  ⟨rfl, rfl⟩

/-- Claim C6 (plugboard involution and identity): for every plugboard
built successfully by `_plugboard`, the mapping is an involution
(`p[a] = b` implies `p[b] = a`), every symbol outside the spec maps to
itself, applying the plugboard twice returns the symbol, and the empty
spec yields the identity (empty) plugboard. -/
theorem C6_plugboard_involution (s : List Char) (pbd : List (Char × Char))
    (h : _plugboard s = Except.ok pbd) :
    (∀ a b, dlookup pbd a = some b → dlookup pbd b = some a)
    ∧ (∀ c, c ∉ s → applyPb pbd c = c)
    ∧ (∀ c, applyPb pbd (applyPb pbd c) = c)
    ∧ _plugboard [] = Except.ok []
    ∧ (∀ c, applyPb [] c = c) := by
  have hgood : PbGood pbd := plugboard_good h
  refine ⟨fun a b hab => (hgood a b hab).1, ?_, applyPb_invol hgood, rfl,
    fun c => rfl⟩
  intro c hc
  apply applyPb_of_none
  cases he : dlookup pbd c with
  | none => rfl
  | some d =>
    exfalso
    obtain ⟨-, hcase⟩ := plugboard_ok h
    rcases hcase with ⟨-, rfl⟩ | ⟨-, -, rfl⟩
    · simp [dlookup] at he
    · exact hc (pbPairs_mem _ _ _ (dlookup_some_mem he)).1

/-- Witness for C6 with the spec "AB": 'A' and 'B' swap, an unpaired
symbol is fixed under double application. -/
theorem C6_plugboard_involution_witness :
    applyPb (pbPairs ("AB".toList)) 'A' = 'B' ∧
    applyPb (pbPairs ("AB".toList))
      (applyPb (pbPairs ("AB".toList)) 'X') = 'X' := by
  have h := C6_plugboard_involution ("AB".toList) (pbPairs ("AB".toList)) rfl
  exact ⟨rfl, h.2.2.1 'X'⟩

/-- Claim C7 (distinguishable errors): every validation failure is
surfaced to the caller before any character of the text is processed
(the error returned by `enigma` is the validator's error, for every
text), and the five failure causes produce pairwise-distinct error
values, exercised here on the spec's own examples. -/
theorem C7_distinguishable_errors :
    (∀ (text pb : List Char) (pos : Int × Int × Int)
      (sel : List Char × List Char × List Char) (e : Err),
      _validator pos sel (List.map upperChar pb) = Except.error e →
      enigma text pos sel pb = Except.error e)
    ∧ enigma (['A']) (1, 1, 1) (rotor1, rotor1, rotor2) [] =
        Except.error (Err.duplicateRotor 2)
    ∧ enigma (['A']) (0, 1, 1) (rotor1, rotor2, rotor3) [] =
        Except.error (Err.positionOutOfRange 1 0)
    ∧ enigma (['A']) (1, 1, 1) (rotor1, rotor2, rotor3) ("ABC".toList) =
        Except.error (Err.oddPlugboard 3)
    ∧ enigma (['A']) (1, 1, 1) (rotor1, rotor2, rotor3) ("AA".toList) =
        Except.error (Err.duplicatePbSymbol 'A')
    ∧ enigma (['A']) (1, 1, 1) (rotor1, rotor2, rotor3) ("A1".toList) =
        Except.error (Err.invalidPbSymbol '1')
    ∧ ([Err.duplicateRotor 2, Err.positionOutOfRange 1 0,
        Err.oddPlugboard 3, Err.duplicatePbSymbol 'A',
        Err.invalidPbSymbol '1'] : List Err).Nodup := by
  refine ⟨?_, rfl, rfl, rfl, rfl, rfl, by decide⟩
  intro text pb pos sel e h
  simp only [enigma, h]

/-- Witness for C7: a validator failure surfaces unchanged from `enigma`
regardless of the text. -/
theorem C7_distinguishable_errors_witness :
    enigma ("xyz".toList) (27, 1, 1) (rotor1, rotor2, rotor3) [] =
      Except.error (Err.positionOutOfRange 1 27) :=
  C7_distinguishable_errors.1 _ _ _ _ _ rfl

/-- Claim C8 (reflector well-formedness): the shipped reflector table is
defined on every alphabet symbol and is an involution with no fixed
point. -/
theorem C8_reflector (c : Char) (hc : c ∈ abc) :
    ∃ d, dlookup reflector c = some d ∧ d ∈ abc ∧ d ≠ c ∧
      dlookup reflector d = some c :=
  reflector_spec hc

/-- Witness for C8 at the symbol 'A'. -/
theorem C8_reflector_witness :
    ∃ d, dlookup reflector 'A' = some d ∧ d ∈ abc ∧ d ≠ 'A' ∧
      dlookup reflector d = some 'A' :=
  C8_reflector 'A' (by decide)

/-- Claim C9 (odometer stepping): the state advances by `odometer`
exactly once per processed alphabet symbol and not at all for other
symbols; under the loop invariant the advance is a base-26 carry chain
(increment offset 1; carry into offset 2 and then offset 3 on wrap past
25; offset 3 silently rolls over to 0); after 26 alphabet symbols from
0-based offsets `(0, k, m)` offset 1 is back to 0 and offset 2 equals
`k + 1 (mod 26)`; after 26 * 26 alphabet symbols offset 3 has advanced
by exactly 1 (mod 26). -/
theorem C9_odometer :
    (∀ (pbd : List (Char × Char)) (r1 r2 r3 : List Char)
      (st st1 : Int × Int × Int) (c d : Char),
      enigmaStep pbd r1 r2 r3 st c = some (d, st1) → c ∈ abc →
      st1 = odometer st)
    ∧ (∀ (pbd : List (Char × Char)) (r1 r2 r3 : List Char)
      (st : Int × Int × Int) (c : Char), c ∉ abc →
      enigmaStep pbd r1 r2 r3 st c = some (c, st))
    ∧ (∀ (pbd : List (Char × Char)) (r1 r2 r3 : List Char)
      (text : List Char) (st stF : Int × Int × Int) (out : List Char),
      enigmaLoop pbd r1 r2 r3 text st = some (out, stF) →
      stF = odometer^[countAbc text] st)
    ∧ (∀ st : Int × Int × Int, InvSt st →
        (st.1 < 25 → odometer st = (st.1 + 1, st.2.1, st.2.2)) ∧
        (st.1 = 25 → st.2.1 < 25 →
          odometer st = (0, st.2.1 + 1, st.2.2)) ∧
        (st.1 = 25 → st.2.1 = 25 → st.2.2 < 25 →
          odometer st = (0, 0, st.2.2 + 1)) ∧
        (st.1 = 25 → st.2.1 = 25 → st.2.2 = 25 →
          odometer st = (0, 0, 0)))
    ∧ (∀ k m : Int, 0 ≤ k → k < 26 → 0 ≤ m → m < 26 →
        (odometer^[26] ((0 : Int), k, m)).1 = 0 ∧
        (odometer^[26] ((0 : Int), k, m)).2.1 = (k + 1) % 26)
    ∧ (∀ k m : Int, 0 ≤ k → k < 26 → 0 ≤ m → m < 26 →
        (odometer^[26 * 26] ((0 : Int), k, m)).2.2 = (m + 1) % 26) := by
  refine ⟨?_, ?_, ?_, ?_, ?_, ?_⟩
  · intro pbd r1 r2 r3 st st1 c d h hc
    rcases enigmaStep_state h with ⟨-, h2⟩ | ⟨hc2, -, -⟩
    · exact h2
    · exact absurd hc hc2
  · intro pbd r1 r2 r3 st c hc
    exact enigmaStep_not_abc hc
  · intro pbd r1 r2 r3 text st stF out h
    exact enigmaLoop_state text st stF out h
  · intro st hst
    obtain ⟨a, b, c⟩ := st
    simp only [InvSt] at hst
    obtain ⟨h1, h2, h3, h4, h5, h6⟩ := hst
    refine ⟨?_, ?_, ?_, ?_⟩
    · intro hh1
      dsimp only at hh1 ⊢
      simp only [odometer, Prod.mk.injEq]
      split_ifs <;> refine ⟨by omega, by omega, by omega⟩
    · intro hh1 hh2
      dsimp only at hh1 hh2 ⊢
      simp only [odometer, Prod.mk.injEq]
      split_ifs <;> refine ⟨by omega, by omega, by omega⟩
    · intro hh1 hh2 hh3
      dsimp only at hh1 hh2 hh3 ⊢
      simp only [odometer, Prod.mk.injEq]
      split_ifs <;> refine ⟨by omega, by omega, by omega⟩
    · intro hh1 hh2 hh3
      dsimp only at hh1 hh2 hh3 ⊢
      simp only [odometer, Prod.mk.injEq]
      split_ifs <;> refine ⟨by omega, by omega, by omega⟩
  · intro k m hk1 hk2 hm1 hm2
    have hinv : InvSt ((0 : Int), k, m) := by
      simp only [InvSt]
      refine ⟨?_, ?_, ?_, ?_, ?_, ?_⟩ <;> omega
    rw [odometer_iterate 26 _ hinv]
    simp only [stateCode, stateDecode]
    constructor <;> push_cast <;> omega
  · intro k m hk1 hk2 hm1 hm2
    have hinv : InvSt ((0 : Int), k, m) := by
      simp only [InvSt]
      refine ⟨?_, ?_, ?_, ?_, ?_, ?_⟩ <;> omega
    rw [odometer_iterate (26 * 26) _ hinv]
    simp only [stateCode, stateDecode]
    push_cast
    omega

/-- Witness for C9: the odometer carry at offsets starting from
`(0, 3, 5)`. -/
theorem C9_odometer_witness :
    (odometer^[26] ((0 : Int), 3, 5)).1 = 0 ∧
    (odometer^[26] ((0 : Int), 3, 5)).2.1 = (3 + 1) % 26 :=
  C9_odometer.2.2.2.2.1 3 5 (by decide) (by decide) (by decide) (by decide)

/-- Claim C10 (plugboard-spec case insensitivity at the public entry
point): `enigma` upper-cases the plugboard spec before validating it, so
its result is unchanged when the spec is upper-cased by the caller, and
the lower-case spec "pictures" is accepted even though `_plugboard`
itself rejects lower-case letters. -/
theorem C10_plugb_case_insensitive :
    (∀ (text pb : List Char) (pos : Int × Int × Int)
      (sel : List Char × List Char × List Char),
      enigma text pos sel pb = enigma text pos sel (List.map upperChar pb))
    ∧ (∃ out, enigma ("Hi!".toList) (1, 1, 1) (rotor1, rotor2, rotor3)
        ("pictures".toList) = Except.ok out)
    ∧ _plugboard ("pictures".toList) =
        Except.error (Err.invalidPbSymbol 'p') := by
  refine ⟨?_, ⟨_, rfl⟩, rfl⟩
  intro text pb pos sel
  simp only [enigma, map_upper_idem pb]

end EnigmaSim
